import Mathlib

/-!
Verification of the CredScan crawler (src/crawler.py) against its
natural-language specification.

The embedding models strings as `List Char` (a codepoint sequence, mirroring
Python's `str`).  Pure helpers (`search_in_html`, trimming, deduplication)
are translated directly from the source.  The effectful crawl loop
(`crawl_file`) is embedded as a function of an explicit environment `Env`
supplying the external collaborators: fetcher acquisition, per-link fetch
outcomes, the markup stripper (BeautifulSoup, whose failure is an `Option`
`none`), and a family of "unexpected error escapes the per-link handler at
iteration n" events that model exceptions not caught by the per-link
`except` clauses.  Observable events of a run (links passed to the fetcher,
accumulated entries, sleeps, release of the driver, the written report, and
the kind of exit) are collected in `RunResult`.
-/

namespace CredScan

/-- Python `str.strip()` on a codepoint list: drop leading and trailing
whitespace (src/crawler.py line 102 `ln.strip()`, line 81 `s.strip()`). -/
def pyStrip (s : List Char) : List Char :=
  ((s.dropWhile Char.isWhitespace).reverse.dropWhile Char.isWhitespace).reverse

/-- Python `s.replace("\n", " ")` (src/crawler.py line 81). -/
def nlToSpace (c : Char) : Char :=
  if c = '\n' then ' ' else c

/-- Replace every newline by a space, codepoint-wise. -/
def replaceNl (s : List Char) : List Char :=
  s.map nlToSpace

/-- Python `html.lower()` /　`keyword.lower()` modelled codepoint-wise
(src/crawler.py lines 68-69). -/
def lowerL (s : List Char) : List Char :=
  s.map Char.toLower

/-- Python `haystack.find(needle)`: index of the first occurrence of
`needle` in the haystack, or `none` (models `lowered.find(k)`,
src/crawler.py line 70, with `none` for the `-1` sentinel). -/
def findSub (needle : List Char) : List Char → Option Nat
  | [] => if needle.isEmpty then some 0 else none
  | a :: t =>
    if needle.isPrefixOf (a :: t) then some 0
    else (findSub needle t).map (fun n => n + 1)

/-- The literal `"..."` used to wrap snippets (src/crawler.py line 81). -/
def dots : List Char := ['.', '.', '.']

/-- The raw window `html[start:end]` of src/crawler.py lines 73-75:
`start = max(0, idx - 120)`, `end = min(len(html), idx + 120)` (natural
subtraction already truncates at 0). -/
def window (html : List Char) (idx : Nat) : List Char :=
  (html.drop (idx - 120)).take (min html.length (idx + 120) - (idx - 120))

/-- The `try: BeautifulSoup(...).get_text() except: s = snippet` fallback of
src/crawler.py lines 77-80: `stripTags` returns `none` when the markup
stripper raises, in which case the raw window is used verbatim. -/
def rawOr (stripTags : List Char → Option (List Char)) (w : List Char) :
    List Char :=
  (stripTags w).getD w

/-- `search_in_html(html, keyword)` of src/crawler.py lines 64-81,
parameterised by the external markup stripper.  Returns `none` ("no match")
when the keyword is empty or absent; otherwise extracts the window around
the first case-insensitive occurrence, strips tags (falling back to the raw
window), strips surrounding whitespace, replaces newlines by spaces and
wraps the result in `"..."`. -/
def search_in_html (stripTags : List Char → Option (List Char))
    (html keyword : List Char) : Option (List Char) :=
  if keyword.isEmpty then none
  else
    match findSub (lowerL keyword) (lowerL html) with
    | none => none
    | some idx =>
      some (dots ++ replaceNl (pyStrip (rawOr stripTags (window html idx))) ++ dots)

/-- Lines 100-102 of src/crawler.py: trim every raw line and discard the
ones that become empty (`[ln.strip() for ln in raw if ln.strip()]`). -/
def cleanLines (raw : List (List Char)) : List (List Char) :=
  (raw.map pyStrip).filter (fun l => !l.isEmpty)

/-- The dedup loop of src/crawler.py lines 108-113, with the `seen` set
modelled as a list queried by membership. -/
def dedupeAux (seen : List (List Char)) : List (List Char) → List (List Char)
  | [] => []
  | l :: rest =>
    if l ∈ seen then dedupeAux seen rest
    else l :: dedupeAux (l :: seen) rest

/-- `uniq_links` built from the cleaned link list (src/crawler.py 108-113):
keep the first occurrence of each distinct value, in order. -/
def dedupe (links : List (List Char)) : List (List Char) :=
  dedupeAux [] links

/-- One fetch outcome per link, as categorised by the `except` clauses of
src/crawler.py lines 136-167.  `success` carries the optional page source
(`driver.page_source or ""`, line 142) and the optional title (the inner
`try/except` of lines 144-147 substitutes `""` on failure). -/
inductive FetchOutcome where
  | success (bodyOpt titleOpt : Option (List Char))
  | timeout
  | driverErr
  | otherErr
deriving DecidableEq

/-- The external collaborators of one run. `acquireOk` is whether
`make_firefox_driver` succeeds (line 120); `fetch` gives each link's
outcome; `stripTags` is the markup stripper; `escape n` models an
unexpected error (one not caught by the per-link handlers) escaping the
loop body at iteration `n`. -/
structure Env where
  acquireOk : Bool
  fetch : List Char → FetchOutcome
  stripTags : List Char → Option (List Char)
  escape : Nat → Bool

/-- A match record (src/crawler.py lines 151-156), minus the wall-clock
timestamp, which is ambient real time outside the embedding. -/
structure Entry where
  url : List Char
  title : List Char
  snippet : List Char
deriving DecidableEq

/-- Observable history of the `for` loop of src/crawler.py lines 128-172:
links handed to `driver.get` in order, entries appended, the iteration
numbers after which `time.sleep(delay)` ran, and whether the loop finished
without an unexpected escaping error. -/
structure LoopResult where
  attempted : List (List Char)
  entries : List Entry
  slept : List Nat
  ok : Bool
deriving DecidableEq

/-- How `crawl_file` (and hence the process, whose `__main__` glue catches
nothing) terminates: `normal` is an ordinary return (process exit 0),
`ioError` is the unhandled exception from `open` on a missing input file,
`escaped` is an unexpected error propagating out of the loop. -/
inductive ExitKind where
  | normal
  | ioError
  | escaped
deriving DecidableEq

/-- Observable result of one `crawl_file` run.  `releaseCount` counts calls
to `driver.quit()` (the `finally` of lines 174-176); `report` is the entry
list written by `write_result_html` (line 180) when that line is reached. -/
structure RunResult where
  attempted : List (List Char)
  entries : List Entry
  slept : List Nat
  releaseCount : Nat
  report : Option (List Entry)
  exit : ExitKind
deriving DecidableEq

/-- Handling of one link inside the `try` of src/crawler.py lines 136-167:
fetch, read the page source and title, and run the keyword search
(`search_in_html(html, keyword) if keyword else None`, line 149).  Returns
the entry appended to `entries`, if any; every non-success outcome is
absorbed by the `except` clauses and yields no entry. -/
def processLink (env : Env) (keyword link : List Char) : Option Entry :=
  match env.fetch link with
  | .success bodyOpt titleOpt =>
    let html := bodyOpt.getD []
    let title := titleOpt.getD []
    match (if keyword.isEmpty then none
           else search_in_html env.stripTags html keyword) with
    | some snip => some ⟨link, title, snip⟩
    | none => none
  | _ => none

/-- The `for link in uniq_links` loop of src/crawler.py lines 126-172.
`count` is incremented first; if it exceeds the cap the loop breaks (before
any fetch and without sleeping).  Otherwise, unless an unexpected error
escapes at this iteration, the link is attempted, a possible entry is
recorded, and the loop sleeps before the next iteration (lines 169-172,
after the per-link `try`). -/
def crawlLoop (env : Env) (keyword : List Char) (maxLinks : Nat) :
    List (List Char) → Nat → LoopResult
  | [], _ => ⟨[], [], [], true⟩
  | link :: rest, count =>
    if maxLinks < count + 1 then ⟨[], [], [], true⟩
    else if env.escape (count + 1) then ⟨[], [], [], false⟩
    else
      let r := crawlLoop env keyword maxLinks rest (count + 1)
      match processLink env keyword link with
      | some e => ⟨link :: r.attempted, e :: r.entries, (count + 1) :: r.slept, r.ok⟩
      | none => ⟨link :: r.attempted, r.entries, (count + 1) :: r.slept, r.ok⟩

/-- `crawl_file` of src/crawler.py lines 98-181.  `input` is the content of
the input file as raw lines, or `none` when the file is missing (in which
case `open` raises and nothing catches it).  An empty cleaned link list
returns early (line 105).  Acquisition failure is caught and returns early
(lines 119-124).  Otherwise the loop runs; the `finally` releases the
driver on every such path, and the report is written only when the loop did
not propagate an unexpected error. -/
def crawl_file (env : Env) (input : Option (List (List Char)))
    (keyword : List Char) (maxLinks : Nat) : RunResult :=
  match input with
  | none => ⟨[], [], [], 0, none, .ioError⟩
  | some raw =>
    let links := cleanLines raw
    if links.isEmpty then ⟨[], [], [], 0, none, .normal⟩
    else
      let uniq := dedupe links
      if env.acquireOk then
        let r := crawlLoop env keyword maxLinks uniq 0
        if r.ok then ⟨r.attempted, r.entries, r.slept, 1, some r.entries, .normal⟩
        else ⟨r.attempted, r.entries, r.slept, 1, none, .escaped⟩
      else ⟨[], [], [], 0, none, .normal⟩

/-- Convenience: a string literal as a codepoint list. -/
def toL (s : String) : List Char := s.toList

/-- A markup stripper that always fails, so extraction falls back to the
raw window. -/
def noStrip : List Char → Option (List Char) := fun _ => none

/-- Concrete environment: acquisition succeeds, every fetch times out, no
unexpected error ever escapes. -/
def witnessEnv : Env := ⟨true, fun _ => .timeout, noStrip, fun _ => false⟩

/-- Concrete environment in which fetcher acquisition fails. -/
def failEnv : Env := ⟨false, fun _ => .timeout, noStrip, fun _ => false⟩

/-- Concrete environment: acquisition succeeds and every fetch returns a
page whose body contains the keyword `world`. -/
def hitEnv : Env :=
  ⟨true,
   fun _ => .success (some (toL "<p>hello WORLD test page</p>"))
     (some (toL "Example")),
   noStrip, fun _ => false⟩

/-- Concrete three-link input used by witnesses. -/
def witLinks : List (List Char) := [toL "u1", toL "u2", toL "u3"]

/-- Concrete page body used by snippet witnesses. -/
def witHtml : List Char := toL "<p>hello WORLD test page</p>"

/-- Concrete keyword used by snippet witnesses. -/
def witKw : List Char := toL "world"

/-! ### Deduplication lemmas -/

theorem dedupeAux_mem (l : List (List Char)) :
    ∀ seen x, x ∈ dedupeAux seen l ↔ x ∈ l ∧ x ∉ seen := by
  induction l with
  | nil => intro seen x; simp [dedupeAux]
  | cons a t ih =>
    intro seen x
    by_cases ha : a ∈ seen
    · simp only [dedupeAux, if_pos ha, ih]
      constructor
      · rintro ⟨hx, hns⟩; exact ⟨List.mem_cons_of_mem _ hx, hns⟩
      · rintro ⟨hx, hns⟩
        rcases List.mem_cons.mp hx with rfl | hx
        · exact absurd ha hns
        · exact ⟨hx, hns⟩
    · simp only [dedupeAux, if_neg ha]
      constructor
      · intro hx
        rcases List.mem_cons.mp hx with rfl | hx
        · exact ⟨List.mem_cons_self _ _, ha⟩
        · rcases (ih _ _).mp hx with ⟨hxt, hxs⟩
          exact ⟨List.mem_cons_of_mem _ hxt,
            fun hc => hxs (List.mem_cons_of_mem _ hc)⟩
      · rintro ⟨hx, hns⟩
        rcases List.mem_cons.mp hx with rfl | hx
        · exact List.mem_cons_self _ _
        · by_cases hxa : x = a
          · subst hxa; exact List.mem_cons_self _ _
          · refine List.mem_cons_of_mem _ ((ih _ _).mpr ⟨hx, ?_⟩)
            intro hc
            rcases List.mem_cons.mp hc with h | h
            · exact hxa h
            · exact hns h

theorem dedupeAux_nodup (l : List (List Char)) :
    ∀ seen, (dedupeAux seen l).Nodup := by
  induction l with
  | nil => intro seen; simp [dedupeAux]
  | cons a t ih =>
    intro seen
    by_cases ha : a ∈ seen
    · simpa [dedupeAux, if_pos ha] using ih seen
    · simp only [dedupeAux, if_neg ha]
      refine List.nodup_cons.mpr ⟨?_, ih _⟩
      intro hc
      exact ((dedupeAux_mem t (a :: seen) a).mp hc).2 (List.mem_cons_self _ _)

theorem dedupeAux_congr (l : List (List Char)) :
    ∀ s₁ s₂, (∀ x, x ∈ s₁ ↔ x ∈ s₂) → dedupeAux s₁ l = dedupeAux s₂ l := by
  induction l with
  | nil => intros; rfl
  | cons a t ih =>
    intro s₁ s₂ h
    by_cases ha : a ∈ s₁
    · simp only [dedupeAux, if_pos ha, if_pos ((h a).mp ha)]
      exact ih _ _ h
    · have ha2 : a ∉ s₂ := fun hc => ha ((h a).mpr hc)
      simp only [dedupeAux, if_neg ha, if_neg ha2]
      refine congrArg _ (ih _ _ ?_)
      intro x
      simp only [List.mem_cons, h x]

theorem dedupeAux_seen_filter (l : List (List Char)) :
    ∀ seen a, dedupeAux (a :: seen) l
      = dedupeAux seen (l.filter (fun b => !(b == a))) := by
  induction l with
  | nil => intros; rfl
  | cons b t ih =>
    intro seen a
    by_cases hba : b = a
    · subst hba
      have hb : b ∈ b :: seen := List.mem_cons_self _ _
      simp only [dedupeAux, if_pos hb, List.filter_cons]
      simp only [beq_self_eq_true, Bool.not_true, if_neg]
      exact ih seen b
    · by_cases hbs : b ∈ seen
      · have h1 : b ∈ a :: seen := List.mem_cons_of_mem _ hbs
        have hkeep : (!(b == a)) = true := by
          simp [hba]
        simp only [dedupeAux, if_pos h1, List.filter_cons, hkeep, if_pos,
          if_pos hbs]
        exact ih seen a
      · have h1 : b ∉ a :: seen := by
          intro hc
          rcases List.mem_cons.mp hc with h | h
          · exact hba h
          · exact hbs h
        have hkeep : (!(b == a)) = true := by
          simp [hba]
        simp only [dedupeAux, if_neg h1, List.filter_cons, hkeep, if_pos,
          if_neg hbs]
        refine congrArg _ ?_
        have hswap : dedupeAux (b :: a :: seen) t
            = dedupeAux (a :: b :: seen) t := by
          refine dedupeAux_congr t _ _ ?_
          intro x
          simp only [List.mem_cons]
          tauto
        rw [hswap, ih (b :: seen) a]

theorem dedupe_nodup (l : List (List Char)) : (dedupe l).Nodup :=
  dedupeAux_nodup l []

theorem dedupe_mem (l : List (List Char)) (x : List Char) :
    x ∈ dedupe l ↔ x ∈ l := by
  rw [dedupe, dedupeAux_mem]
  simp

theorem dedupe_cons (a : List Char) (l : List (List Char)) :
    dedupe (a :: l) = a :: dedupe (l.filter (fun b => !(b == a))) := by
  have hnm : a ∉ ([] : List (List Char)) := List.not_mem_nil a
  simp only [dedupe, dedupeAux, if_neg hnm]
  rw [dedupeAux_seen_filter]

/-! ### Crawl-loop lemmas -/

theorem processLink_url (env : Env) (kw link : List Char) (e : Entry)
    (h : processLink env kw link = some e) : e.url = link := by
  unfold processLink at h
  cases hf : env.fetch link with
  | success b t =>
    rw [hf] at h
    simp only [] at h
    cases hs : (if kw.isEmpty then none
        else search_in_html env.stripTags (b.getD []) kw) with
    | none => rw [hs] at h; cases h
    | some snip =>
      rw [hs] at h
      cases h
      rfl
  | timeout => rw [hf] at h; cases h
  | driverErr => rw [hf] at h; cases h
  | otherErr => rw [hf] at h; cases h

theorem crawlLoop_attempted_length_le (env : Env) (kw : List Char) (m : Nat) :
    ∀ links count,
      (crawlLoop env kw m links count).attempted.length ≤ m - count := by
  intro links
  induction links with
  | nil => intro count; simp [crawlLoop]
  | cons link rest ih =>
    intro count
    by_cases hm : m < count + 1
    · simp [crawlLoop, hm]
    · by_cases hesc : env.escape (count + 1) = true
      · simp [crawlLoop, hm, hesc]
      · have hesc' : env.escape (count + 1) = false :=
          Bool.eq_false_iff.mpr hesc
        have hle := ih (count + 1)
        cases hp : processLink env kw link with
        | some e =>
          simp only [crawlLoop, if_neg hm, hesc', Bool.false_eq_true,
            if_false, hp, List.length_cons]
          omega
        | none =>
          simp only [crawlLoop, if_neg hm, hesc', Bool.false_eq_true,
            if_false, hp, List.length_cons]
          omega

theorem crawlLoop_attempted_noescape (env : Env) (kw : List Char) (m : Nat)
    (hesc : ∀ n, env.escape n = false) :
    ∀ links count,
      (crawlLoop env kw m links count).attempted = links.take (m - count) := by
  intro links
  induction links with
  | nil => intro count; simp [crawlLoop]
  | cons link rest ih =>
    intro count
    by_cases hm : m < count + 1
    · have h0 : m - count = 0 := by omega
      simp [crawlLoop, hm, h0]
    · have h1 : m - count = (m - (count + 1)) + 1 := by omega
      rw [h1]
      cases hp : processLink env kw link with
      | some e =>
        simp only [crawlLoop, if_neg hm, hesc, Bool.false_eq_true, if_false,
          hp, List.take_succ_cons]
        rw [ih (count + 1)]
      | none =>
        simp only [crawlLoop, if_neg hm, hesc, Bool.false_eq_true, if_false,
          hp, List.take_succ_cons]
        rw [ih (count + 1)]

theorem crawlLoop_ok_noescape (env : Env) (kw : List Char) (m : Nat)
    (hesc : ∀ n, env.escape n = false) :
    ∀ links count, (crawlLoop env kw m links count).ok = true := by
  intro links
  induction links with
  | nil => intro count; simp [crawlLoop]
  | cons link rest ih =>
    intro count
    by_cases hm : m < count + 1
    · simp [crawlLoop, hm]
    · cases hp : processLink env kw link with
      | some e =>
        simp only [crawlLoop, if_neg hm, hesc, Bool.false_eq_true, if_false, hp]
        exact ih (count + 1)
      | none =>
        simp only [crawlLoop, if_neg hm, hesc, Bool.false_eq_true, if_false, hp]
        exact ih (count + 1)

theorem crawlLoop_entries_eq (env : Env) (kw : List Char) (m : Nat) :
    ∀ links count,
      (crawlLoop env kw m links count).entries
        = (crawlLoop env kw m links count).attempted.filterMap
            (processLink env kw) := by
  intro links
  induction links with
  | nil => intro count; simp [crawlLoop]
  | cons link rest ih =>
    intro count
    by_cases hm : m < count + 1
    · simp [crawlLoop, hm]
    · by_cases he : env.escape (count + 1) = true
      · simp [crawlLoop, hm, he]
      · have he' : env.escape (count + 1) = false := Bool.eq_false_iff.mpr he
        cases hp : processLink env kw link with
        | some e =>
          simp only [crawlLoop, if_neg hm, he', Bool.false_eq_true, if_false,
            hp, List.filterMap_cons]
          rw [ih (count + 1)]
        | none =>
          simp only [crawlLoop, if_neg hm, he', Bool.false_eq_true, if_false,
            hp, List.filterMap_cons]
          rw [ih (count + 1)]

theorem crawlLoop_slept_eq (env : Env) (kw : List Char) (m : Nat) :
    ∀ links count,
      (crawlLoop env kw m links count).slept
        = List.range' (count + 1)
            (crawlLoop env kw m links count).attempted.length := by
  intro links
  induction links with
  | nil => intro count; simp [crawlLoop]
  | cons link rest ih =>
    intro count
    by_cases hm : m < count + 1
    · simp [crawlLoop, hm, List.range']
    · by_cases he : env.escape (count + 1) = true
      · simp [crawlLoop, hm, he, List.range']
      · have he' : env.escape (count + 1) = false := Bool.eq_false_iff.mpr he
        cases hp : processLink env kw link with
        | some e =>
          simp only [crawlLoop, if_neg hm, he', Bool.false_eq_true, if_false,
            hp, List.length_cons, List.range']
          rw [ih (count + 1)]
        | none =>
          simp only [crawlLoop, if_neg hm, he', Bool.false_eq_true, if_false,
            hp, List.length_cons, List.range']
          rw [ih (count + 1)]

theorem filterMap_url_sublist (env : Env) (kw : List Char) :
    ∀ l : List (List Char),
      List.Sublist ((l.filterMap (processLink env kw)).map Entry.url) l := by
  intro l
  induction l with
  | nil => simp
  | cons x t ih =>
    cases hp : processLink env kw x with
    | none =>
      simp only [List.filterMap_cons, hp]
      exact List.Sublist.cons x ih
    | some e =>
      simp only [List.filterMap_cons, hp, List.map_cons]
      rw [processLink_url env kw x e hp]
      exact List.Sublist.cons₂ x ih

/-! ### Substring-search lemmas -/

theorem isPrefixOf_append (p : List Char) :
    ∀ l, p.isPrefixOf l = true → ∃ r, l = p ++ r := by
  induction p with
  | nil => intro l _; exact ⟨l, rfl⟩
  | cons a as ih =>
    intro l h
    cases l with
    | nil => simp [List.isPrefixOf] at h
    | cons b bs =>
      simp only [List.isPrefixOf, Bool.and_eq_true, beq_iff_eq] at h
      obtain ⟨rfl, h2⟩ := h
      obtain ⟨r, rfl⟩ := ih bs h2
      exact ⟨r, rfl⟩

theorem findSub_some_split (needle : List Char) :
    ∀ hay i, findSub needle hay = some i →
      ∃ r, hay = hay.take i ++ needle ++ r := by
  intro hay
  induction hay with
  | nil =>
    intro i h
    simp only [findSub] at h
    by_cases hne : needle.isEmpty = true
    · rw [if_pos hne] at h
      cases h
      refine ⟨[], ?_⟩
      rw [List.isEmpty_iff.mp hne]
      rfl
    · rw [if_neg hne] at h
      cases h
  | cons a t ih =>
    intro i h
    simp only [findSub] at h
    by_cases hp : needle.isPrefixOf (a :: t) = true
    · rw [if_pos hp] at h
      cases h
      obtain ⟨r, hr⟩ := isPrefixOf_append needle _ hp
      exact ⟨r, by simpa using hr⟩
    · rw [if_neg hp] at h
      cases hft : findSub needle t with
      | none => rw [hft] at h; cases h
      | some j =>
        rw [hft] at h
        simp only [Option.map_some', Option.some.injEq] at h
        obtain ⟨r, hr⟩ := ih j hft
        refine ⟨r, ?_⟩
        rw [← h, List.take_succ_cons]
        simpa using hr

theorem findSub_some_occ (needle : List Char) :
    ∀ hay i, findSub needle hay = some i →
      needle.isPrefixOf (hay.drop i) = true := by
  intro hay
  induction hay with
  | nil =>
    intro i h
    simp only [findSub] at h
    by_cases hne : needle.isEmpty = true
    · rw [if_pos hne] at h
      cases h
      rw [List.isEmpty_iff.mp hne]
      rfl
    · rw [if_neg hne] at h
      cases h
  | cons a t ih =>
    intro i h
    simp only [findSub] at h
    by_cases hp : needle.isPrefixOf (a :: t) = true
    · rw [if_pos hp] at h
      cases h
      simpa using hp
    · rw [if_neg hp] at h
      cases hft : findSub needle t with
      | none => rw [hft] at h; cases h
      | some j =>
        rw [hft] at h
        simp only [Option.map_some', Option.some.injEq] at h
        rw [← h, List.drop_succ_cons]
        exact ih j hft

theorem findSub_some_min (needle : List Char) :
    ∀ hay i, findSub needle hay = some i →
      ∀ j, j < i → needle.isPrefixOf (hay.drop j) = false := by
  intro hay
  induction hay with
  | nil =>
    intro i h j hj
    simp only [findSub] at h
    by_cases hne : needle.isEmpty = true
    · rw [if_pos hne] at h
      cases h
      omega
    · rw [if_neg hne] at h
      cases h
  | cons a t ih =>
    intro i h j hj
    simp only [findSub] at h
    by_cases hp : needle.isPrefixOf (a :: t) = true
    · rw [if_pos hp] at h
      cases h
      omega
    · rw [if_neg hp] at h
      cases hft : findSub needle t with
      | none => rw [hft] at h; cases h
      | some k =>
        rw [hft] at h
        simp only [Option.map_some', Option.some.injEq] at h
        cases j with
        | zero =>
          simpa using Bool.eq_false_iff.mpr hp
        | succ j0 =>
          rw [List.drop_succ_cons]
          exact ih k hft j0 (by omega)

theorem findSub_of_first (needle : List Char) :
    ∀ hay i, needle.isPrefixOf (hay.drop i) = true →
      (∀ j, j < i → needle.isPrefixOf (hay.drop j) = false) →
      findSub needle hay = some i := by
  intro hay
  induction hay with
  | nil =>
    intro i hocc hmin
    cases needle with
    | nil =>
      have hi : i = 0 := by
        by_contra hne
        have h0 := hmin 0 (Nat.pos_of_ne_zero hne)
        simp [List.isPrefixOf] at h0
      subst hi
      rfl
    | cons c cs =>
      rw [List.drop_nil] at hocc
      simp [List.isPrefixOf] at hocc
  | cons a t ih =>
    intro i hocc hmin
    cases i with
    | zero =>
      rw [List.drop_zero] at hocc
      simp [findSub, hocc]
    | succ k =>
      have h0 : needle.isPrefixOf (a :: t) = false := by
        have := hmin 0 (Nat.succ_pos k)
        simpa using this
      have hocc' : needle.isPrefixOf (t.drop k) = true := by
        simpa [List.drop_succ_cons] using hocc
      have hmin' : ∀ j, j < k → needle.isPrefixOf (t.drop j) = false := by
        intro j hj
        have := hmin (j + 1) (by omega)
        simpa [List.drop_succ_cons] using this
      simp only [findSub, h0, Bool.false_eq_true, if_false]
      rw [ih k hocc' hmin']
      rfl

/-! ### Whitespace-normalisation lemmas -/

theorem isWhitespace_nlToSpace (c : Char) :
    (nlToSpace c).isWhitespace = c.isWhitespace := by
  by_cases h : c = '\n'
  · subst h; rfl
  · simp [nlToSpace, h]

theorem dropWhile_ws_map_nl (l : List Char) :
    (l.map nlToSpace).dropWhile Char.isWhitespace
      = (l.dropWhile Char.isWhitespace).map nlToSpace := by
  induction l with
  | nil => rfl
  | cons c t ih =>
    simp only [List.map_cons, List.dropWhile_cons, isWhitespace_nlToSpace]
    by_cases h : c.isWhitespace = true
    · simp [h, ih]
    · simp [h]

theorem replaceNl_pyStrip (s : List Char) :
    replaceNl (pyStrip s) = pyStrip (replaceNl s) := by
  unfold pyStrip replaceNl
  rw [dropWhile_ws_map_nl, ← List.map_reverse, dropWhile_ws_map_nl,
    ← List.map_reverse]

/-! ### Case reductions of `crawl_file` -/

theorem crawl_file_none_eq (env : Env) (keyword : List Char) (maxLinks : Nat) :
    crawl_file env none keyword maxLinks
      = ⟨[], [], [], 0, none, ExitKind.ioError⟩ := rfl

theorem crawl_file_empty_eq (env : Env) (raw : List (List Char))
    (keyword : List Char) (maxLinks : Nat)
    (hne : (cleanLines raw).isEmpty = true) :
    crawl_file env (some raw) keyword maxLinks
      = ⟨[], [], [], 0, none, ExitKind.normal⟩ := by
  simp [crawl_file, hne]

theorem crawl_file_noacq_eq (env : Env) (raw : List (List Char))
    (keyword : List Char) (maxLinks : Nat)
    (hne : (cleanLines raw).isEmpty = false)
    (hacq : env.acquireOk = false) :
    crawl_file env (some raw) keyword maxLinks
      = ⟨[], [], [], 0, none, ExitKind.normal⟩ := by
  simp [crawl_file, hne, hacq]

theorem crawl_file_loop_eq (env : Env) (raw : List (List Char))
    (keyword : List Char) (maxLinks : Nat)
    (hne : (cleanLines raw).isEmpty = false)
    (hacq : env.acquireOk = true) :
    crawl_file env (some raw) keyword maxLinks
      = (if (crawlLoop env keyword maxLinks (dedupe (cleanLines raw)) 0).ok then
           ⟨(crawlLoop env keyword maxLinks (dedupe (cleanLines raw)) 0).attempted,
            (crawlLoop env keyword maxLinks (dedupe (cleanLines raw)) 0).entries,
            (crawlLoop env keyword maxLinks (dedupe (cleanLines raw)) 0).slept,
            1,
            some (crawlLoop env keyword maxLinks (dedupe (cleanLines raw)) 0).entries,
            ExitKind.normal⟩
         else
           ⟨(crawlLoop env keyword maxLinks (dedupe (cleanLines raw)) 0).attempted,
            (crawlLoop env keyword maxLinks (dedupe (cleanLines raw)) 0).entries,
            (crawlLoop env keyword maxLinks (dedupe (cleanLines raw)) 0).slept,
            1, none, ExitKind.escaped⟩) := by
  simp [crawl_file, hne, hacq]

theorem crawl_file_loop_fields (env : Env) (raw : List (List Char))
    (keyword : List Char) (maxLinks : Nat)
    (hne : (cleanLines raw).isEmpty = false)
    (hacq : env.acquireOk = true) :
    (crawl_file env (some raw) keyword maxLinks).attempted
      = (crawlLoop env keyword maxLinks (dedupe (cleanLines raw)) 0).attempted ∧
    (crawl_file env (some raw) keyword maxLinks).entries
      = (crawlLoop env keyword maxLinks (dedupe (cleanLines raw)) 0).entries ∧
    (crawl_file env (some raw) keyword maxLinks).slept
      = (crawlLoop env keyword maxLinks (dedupe (cleanLines raw)) 0).slept ∧
    (crawl_file env (some raw) keyword maxLinks).releaseCount = 1 := by
  rw [crawl_file_loop_eq env raw keyword maxLinks hne hacq]
  by_cases hok : (crawlLoop env keyword maxLinks (dedupe (cleanLines raw)) 0).ok = true
  · simp [hok]
  · simp [hok]

/-! ### Claim theorems -/

/-- C1: in any run that acquired the fetcher, the number of fetch attempts
never exceeds `maxLinks`; the recorded match urls are a subsequence of the
attempted links (same relative order); and, when no unexpected error
escapes mid-loop and the deduplicated list is longer than the cap, exactly
`maxLinks` fetches are attempted and no match record references any of the
remaining links. -/
theorem crawl_cap_and_order (env : Env) (raw : List (List Char))
    (keyword : List Char) (maxLinks : Nat)
    (hacq : env.acquireOk = true)
    (hne : (cleanLines raw).isEmpty = false) :
    (crawl_file env (some raw) keyword maxLinks).attempted.length ≤ maxLinks ∧
    List.Sublist
      ((crawl_file env (some raw) keyword maxLinks).entries.map Entry.url)
      (crawl_file env (some raw) keyword maxLinks).attempted ∧
    ((∀ n, env.escape n = false) →
      maxLinks < (dedupe (cleanLines raw)).length →
      (crawl_file env (some raw) keyword maxLinks).attempted.length = maxLinks ∧
      ∀ e ∈ (crawl_file env (some raw) keyword maxLinks).entries,
        e.url ∉ (dedupe (cleanLines raw)).drop maxLinks) := by
  obtain ⟨hatt, hent, -, -⟩ :=
    crawl_file_loop_fields env raw keyword maxLinks hne hacq
  refine ⟨?_, ?_, ?_⟩
  · rw [hatt]
    simpa using
      crawlLoop_attempted_length_le env keyword maxLinks
        (dedupe (cleanLines raw)) 0
  · rw [hatt, hent, crawlLoop_entries_eq]
    exact filterMap_url_sublist env keyword _
  · intro hesc hlen
    have htake := crawlLoop_attempted_noescape env keyword maxLinks hesc
      (dedupe (cleanLines raw)) 0
    rw [Nat.sub_zero] at htake
    constructor
    · rw [hatt, htake, List.length_take]
      omega
    · intro e he
      have hurl : e.url ∈ (crawl_file env (some raw) keyword maxLinks).attempted := by
        have hsub : List.Sublist
            ((crawl_file env (some raw) keyword maxLinks).entries.map Entry.url)
            (crawl_file env (some raw) keyword maxLinks).attempted := by
          rw [hatt, hent, crawlLoop_entries_eq]
          exact filterMap_url_sublist env keyword _
        exact hsub.mem (List.mem_map_of_mem Entry.url he)
      rw [hatt, htake] at hurl
      have hnd : (dedupe (cleanLines raw)).Nodup := dedupe_nodup _
      have hdisj : ((dedupe (cleanLines raw)).take maxLinks).Disjoint
          ((dedupe (cleanLines raw)).drop maxLinks) := by
        have := hnd
        rw [← List.take_append_drop maxLinks (dedupe (cleanLines raw))] at this
        exact (List.nodup_append.mp this).2.2
      exact fun hc => hdisj hurl hc

/-- Witness for C1 at a concrete three-link input with cap 2 and an
environment whose fetches all succeed with a matching body. -/
theorem crawl_cap_and_order_witness :
    hitEnv.acquireOk = true ∧
    (cleanLines witLinks).isEmpty = false ∧
    ((crawl_file hitEnv (some witLinks) witKw 2).attempted.length ≤ 2 ∧
     List.Sublist
       ((crawl_file hitEnv (some witLinks) witKw 2).entries.map Entry.url)
       (crawl_file hitEnv (some witLinks) witKw 2).attempted ∧
     ((∀ n, hitEnv.escape n = false) →
       2 < (dedupe (cleanLines witLinks)).length →
       (crawl_file hitEnv (some witLinks) witKw 2).attempted.length = 2 ∧
       ∀ e ∈ (crawl_file hitEnv (some witLinks) witKw 2).entries,
         e.url ∉ (dedupe (cleanLines witLinks)).drop 2)) :=
  ⟨rfl, by decide, crawl_cap_and_order hitEnv witLinks witKw 2 rfl (by decide)⟩

/-- C2: per-item failure isolation: whatever outcome each fetch has
(timeout, driver error, other error or success), as long as no error
outside the per-link handler escapes, every deduplicated link up to the cap
is attempted in order, the run exits normally, and the entries are exactly
the per-link results of the attempted links. -/
theorem per_item_isolation (env : Env) (raw : List (List Char))
    (keyword : List Char) (maxLinks : Nat)
    (hacq : env.acquireOk = true)
    (hne : (cleanLines raw).isEmpty = false)
    (hesc : ∀ n, env.escape n = false) :
    (crawl_file env (some raw) keyword maxLinks).exit = ExitKind.normal ∧
    (crawl_file env (some raw) keyword maxLinks).attempted
      = (dedupe (cleanLines raw)).take maxLinks ∧
    (crawl_file env (some raw) keyword maxLinks).entries
      = ((dedupe (cleanLines raw)).take maxLinks).filterMap
          (processLink env keyword) := by
  have hok := crawlLoop_ok_noescape env keyword maxLinks hesc
    (dedupe (cleanLines raw)) 0
  have htake := crawlLoop_attempted_noescape env keyword maxLinks hesc
    (dedupe (cleanLines raw)) 0
  rw [Nat.sub_zero] at htake
  rw [crawl_file_loop_eq env raw keyword maxLinks hne hacq, if_pos hok]
  exact ⟨rfl, htake, by rw [crawlLoop_entries_eq, htake]⟩

/-- Witness for C2: all three fetches time out, yet all three links are
attempted and the run exits normally. -/
theorem per_item_isolation_witness :
    witnessEnv.acquireOk = true ∧
    (cleanLines witLinks).isEmpty = false ∧
    (∀ n, witnessEnv.escape n = false) ∧
    ((crawl_file witnessEnv (some witLinks) witKw 5).exit = ExitKind.normal ∧
     (crawl_file witnessEnv (some witLinks) witKw 5).attempted
       = (dedupe (cleanLines witLinks)).take 5 ∧
     (crawl_file witnessEnv (some witLinks) witKw 5).entries
       = ((dedupe (cleanLines witLinks)).take 5).filterMap
           (processLink witnessEnv witKw)) :=
  ⟨rfl, by decide, fun _ => rfl,
    per_item_isolation witnessEnv witLinks witKw 5 rfl (by decide)
      (fun _ => rfl)⟩

/-- C3: the fetcher's release routine (`driver.quit()` in the `finally`)
runs exactly once whenever the fetcher was acquired — on normal completion,
on cap stop, and when an unexpected error escapes mid-loop — and never runs
when acquisition failed or was not reached. -/
theorem guaranteed_cleanup (env : Env) (input : Option (List (List Char)))
    (keyword : List Char) (maxLinks : Nat) :
    (crawl_file env input keyword maxLinks).releaseCount
      = match input with
        | none => 0
        | some raw =>
          if (cleanLines raw).isEmpty = false ∧ env.acquireOk = true then 1
          else 0 := by
  cases input with
  | none => rfl
  | some raw =>
    by_cases hne : (cleanLines raw).isEmpty = true
    · rw [crawl_file_empty_eq env raw keyword maxLinks hne]
      simp [hne]
    · have hne' : (cleanLines raw).isEmpty = false := Bool.eq_false_iff.mpr hne
      by_cases hacq : env.acquireOk = true
      · obtain ⟨-, -, -, hrel⟩ :=
          crawl_file_loop_fields env raw keyword maxLinks hne' hacq
        rw [hrel]
        simp [hne', hacq]
      · have hacq' : env.acquireOk = false := Bool.eq_false_iff.mpr hacq
        rw [crawl_file_noacq_eq env raw keyword maxLinks hne' hacq']
        simp [hacq']

/-- C4 counterexample: with fetcher acquisition failing on a non-empty link
list, `crawl_file` attempts no links and writes no report, but it returns
normally (the `except WebDriverException` of lines 121-124 prints to stderr
and `return`s, so the process exits with status 0) — there is no fatal exit
status, refuting the claim as stated. -/
theorem fatal_abort_counterexample :
    (crawl_file failEnv (some [toL "http://a.example"]) (toL "key") 5).exit
      = ExitKind.normal ∧
    (crawl_file failEnv (some [toL "http://a.example"]) (toL "key") 5).attempted
      = [] ∧
    (crawl_file failEnv (some [toL "http://a.example"]) (toL "key") 5).report
      = none := by
  decide

/-- C4 amended: if acquiring the Page Fetcher fails, the run aborts
immediately — zero links are attempted, no entries accumulate, no report
artifact is produced and the fetcher is never released — but the condition
is only reported on stderr and the function returns normally (process exit
status 0), not with a fatal exit status. -/
theorem fatal_abort_amended (env : Env) (raw : List (List Char))
    (keyword : List Char) (maxLinks : Nat)
    (hacq : env.acquireOk = false)
    (hne : (cleanLines raw).isEmpty = false) :
    crawl_file env (some raw) keyword maxLinks
      = ⟨[], [], [], 0, none, ExitKind.normal⟩ :=
  crawl_file_noacq_eq env raw keyword maxLinks hne hacq

/-- Witness for the amended C4 at a concrete input. -/
theorem fatal_abort_amended_witness :
    failEnv.acquireOk = false ∧
    (cleanLines [toL "http://a.example"]).isEmpty = false ∧
    crawl_file failEnv (some [toL "http://a.example"]) (toL "key") 5
      = ⟨[], [], [], 0, none, ExitKind.normal⟩ :=
  ⟨rfl, by decide,
    fatal_abort_amended failEnv [toL "http://a.example"] (toL "key") 5 rfl
      (by decide)⟩

theorem count_eq_one_of_nodup (x : List Char) :
    ∀ l : List (List Char), l.Nodup → x ∈ l → l.count x = 1 := by
  intro l
  induction l with
  | nil => intro _ h; cases h
  | cons a t ih =>
    intro hnd hx
    rcases List.mem_cons.mp hx with rfl | hxt
    · rw [List.count_cons_self, List.count_eq_zero.mpr (List.nodup_cons.mp hnd).1]
    · have hne : x ≠ a := by
        rintro rfl
        exact (List.nodup_cons.mp hnd).1 hxt
      rw [List.count_cons_of_ne hne]
      exact ih (List.nodup_cons.mp hnd).2 hxt

/-- C5: link deduplication: a line survives cleaning iff its trimmed value
is non-empty and comes from some raw line; the deduplicated output has no
duplicates; it contains exactly the cleaned values; it keeps the first
occurrence and drops the later ones (`dedupe (a :: l)` is `a` followed by
the dedup of `l` purged of `a`); each value present appears exactly once;
the spec's example holds; and empty input yields empty output. -/
theorem dedup_contract :
    (∀ raw x, x ∈ cleanLines raw ↔ (¬ x = []) ∧ ∃ ln ∈ raw, pyStrip ln = x) ∧
    (∀ l, (dedupe l).Nodup) ∧
    (∀ l x, x ∈ dedupe l ↔ x ∈ l) ∧
    (∀ a l, dedupe (a :: l) = a :: dedupe (l.filter (fun b => !(b == a)))) ∧
    (∀ l x, x ∈ l → (dedupe l).count x = 1) ∧
    dedupe (cleanLines [toL "a", toL "b", toL "a", toL " b ", toL "c"])
      = [toL "a", toL "b", toL "c"] ∧
    cleanLines [] = [] ∧ dedupe [] = [] := by
  refine ⟨?_, dedupe_nodup, dedupe_mem, dedupe_cons, ?_, by decide, rfl, rfl⟩
  · intro raw x
    simp only [cleanLines, List.mem_filter, List.mem_map]
    constructor
    · rintro ⟨⟨ln, hln, rfl⟩, hx⟩
      refine ⟨?_, ln, hln, rfl⟩
      intro hnil
      rw [hnil] at hx
      simp at hx
    · rintro ⟨hx, ln, hln, rfl⟩
      refine ⟨⟨ln, hln, rfl⟩, ?_⟩
      cases hpe : pyStrip ln with
      | nil => exact absurd hpe hx
      | cons c t => rfl
  · intro l x hx
    exact count_eq_one_of_nodup x (dedupe l) (dedupe_nodup l)
      ((dedupe_mem l x).mpr hx)

/-- Witness for C5 instantiating the exactly-once conjunct at a concrete
list. -/
theorem dedup_contract_witness :
    toL "a" ∈ [toL "a", toL "b", toL "a"] ∧
    (dedupe [toL "a", toL "b", toL "a"]).count (toL "a") = 1 :=
  ⟨by decide, dedup_contract.2.2.2.2.1 [toL "a", toL "b", toL "a"] (toL "a")
    (by decide)⟩

/-- C9 counterexample: a missing input file is not a non-fatal no-op:
`open(input_path)` on line 100 raises and nothing in the program catches
it, so the run aborts with an unhandled error rather than terminating
normally. -/
theorem missing_input_counterexample :
    (crawl_file witnessEnv none (toL "key") 5).exit = ExitKind.ioError ∧
    ¬ (crawl_file witnessEnv none (toL "key") 5).exit = ExitKind.normal := by
  decide

/-- C9 amended: an input with no non-blank lines is a non-fatal no-op (zero
attempts, zero matches, no fetcher acquisition, normal return); a missing
input file, however, raises an unhandled error and the run aborts
fatally. -/
theorem empty_input_noop (env : Env) (raw : List (List Char))
    (keyword : List Char) (maxLinks : Nat)
    (hne : (cleanLines raw).isEmpty = true) :
    crawl_file env (some raw) keyword maxLinks
      = ⟨[], [], [], 0, none, ExitKind.normal⟩ ∧
    crawl_file env none keyword maxLinks
      = ⟨[], [], [], 0, none, ExitKind.ioError⟩ :=
  ⟨crawl_file_empty_eq env raw keyword maxLinks hne, rfl⟩

/-- Witness for the amended C9: blank-only input. -/
theorem empty_input_noop_witness :
    (cleanLines [toL "  ", toL ""]).isEmpty = true ∧
    crawl_file witnessEnv (some [toL "  ", toL ""]) (toL "key") 5
      = ⟨[], [], [], 0, none, ExitKind.normal⟩ ∧
    crawl_file witnessEnv none (toL "key") 5
      = ⟨[], [], [], 0, none, ExitKind.ioError⟩ :=
  ⟨by decide, empty_input_noop witnessEnv [toL "  ", toL ""] (toL "key") 5
    (by decide)⟩

/-- C6: snippet extraction contract for a non-empty keyword: if the
lowercased keyword occurs nowhere in the lowercased body, no snippet is
produced; if its first occurrence is at codepoint index `i`, the extractor
takes the raw window `[max(0, i-120), min(len, i+120))` of the body, strips
markup (falling back to the raw window when the stripper fails), replaces
internal newlines by spaces, trims surrounding whitespace, and wraps the
text in dots. -/
theorem snippet_contract (stripTags : List Char → Option (List Char))
    (html keyword : List Char) (hk : ¬ keyword = []) :
    ((∀ j, (lowerL keyword).isPrefixOf ((lowerL html).drop j) = false) →
      search_in_html stripTags html keyword = none) ∧
    (∀ i, (lowerL keyword).isPrefixOf ((lowerL html).drop i) = true →
      (∀ j, j < i → (lowerL keyword).isPrefixOf ((lowerL html).drop j) = false) →
      search_in_html stripTags html keyword
        = some (dots ++ pyStrip (replaceNl (rawOr stripTags (window html i)))
            ++ dots)) := by
  have hke : keyword.isEmpty = false := by
    cases keyword
    · exact absurd rfl hk
    · rfl
  constructor
  · intro habs
    unfold search_in_html
    rw [hke]
    simp only [Bool.false_eq_true, if_false]
    cases hfs : findSub (lowerL keyword) (lowerL html) with
    | none => rfl
    | some i =>
      have hocc := findSub_some_occ (lowerL keyword) (lowerL html) i hfs
      rw [habs i] at hocc
      cases hocc
  · intro i hocc hmin
    have hfs := findSub_of_first (lowerL keyword) (lowerL html) i hocc hmin
    unfold search_in_html
    rw [hke]
    simp only [Bool.false_eq_true, if_false, hfs]
    rw [replaceNl_pyStrip]

/-- Witness for C6 at the spec's own example: body
`"<p>hello WORLD test page</p>"`, keyword `"world"`, first occurrence at
codepoint index 9. -/
theorem snippet_contract_witness :
    (¬ witKw = []) ∧
    (lowerL witKw).isPrefixOf ((lowerL witHtml).drop 9) = true ∧
    (∀ j, j < 9 → (lowerL witKw).isPrefixOf ((lowerL witHtml).drop j) = false) ∧
    search_in_html noStrip witHtml witKw
      = some (dots ++ pyStrip (replaceNl (rawOr noStrip (window witHtml 9)))
          ++ dots) :=
  ⟨by decide, by decide, by decide,
    (snippet_contract noStrip witHtml witKw (by decide)).2 9 (by decide)
      (by decide)⟩

theorem processLink_empty_keyword (env : Env) (link : List Char) :
    processLink env [] link = none := by
  cases hf : env.fetch link with
  | success b t => simp [processLink, hf]
  | timeout => simp [processLink, hf]
  | driverErr => simp [processLink, hf]
  | otherErr => simp [processLink, hf]

/-- C7: with an empty keyword the extractor signals "no match" (`none`,
distinct from an empty string) for every body and every stripper, and the
crawl loop produces zero match records whatever the environment, the input,
and the cap; any report written is empty. -/
theorem no_keyword_no_records :
    (∀ stripTags html, search_in_html stripTags html [] = none) ∧
    (∀ env input maxLinks,
      (crawl_file env input ([] : List Char) maxLinks).entries = []) ∧
    (∀ env input maxLinks,
      (crawl_file env input ([] : List Char) maxLinks).report = none ∨
      (crawl_file env input ([] : List Char) maxLinks).report = some []) := by
  have hent : ∀ env input maxLinks,
      (crawl_file env input ([] : List Char) maxLinks).entries = [] := by
    intro env input maxLinks
    cases input with
    | none => rfl
    | some raw =>
      by_cases hne : (cleanLines raw).isEmpty = true
      · rw [crawl_file_empty_eq env raw [] maxLinks hne]
      · have hne' : (cleanLines raw).isEmpty = false := Bool.eq_false_iff.mpr hne
        by_cases hacq : env.acquireOk = true
        · obtain ⟨-, hent, -, -⟩ :=
            crawl_file_loop_fields env raw [] maxLinks hne' hacq
          rw [hent, crawlLoop_entries_eq]
          refine List.filterMap_eq_nil_iff.mpr ?_
          intro link _
          exact processLink_empty_keyword env link
        · have hacq' : env.acquireOk = false := Bool.eq_false_iff.mpr hacq
          rw [crawl_file_noacq_eq env raw [] maxLinks hne' hacq']
  refine ⟨?_, hent, ?_⟩
  · intro stripTags html
    rfl
  · intro env input maxLinks
    cases input with
    | none => exact Or.inl rfl
    | some raw =>
      by_cases hne : (cleanLines raw).isEmpty = true
      · rw [crawl_file_empty_eq env raw [] maxLinks hne]
        exact Or.inl rfl
      · have hne' : (cleanLines raw).isEmpty = false := Bool.eq_false_iff.mpr hne
        by_cases hacq : env.acquireOk = true
        · rw [crawl_file_loop_eq env raw [] maxLinks hne' hacq]
          by_cases hok : (crawlLoop env [] maxLinks (dedupe (cleanLines raw)) 0).ok
            = true
          · rw [if_pos hok]
            refine Or.inr ?_
            have := hent env (some raw) maxLinks
            rw [crawl_file_loop_eq env raw [] maxLinks hne' hacq,
              if_pos hok] at this
            simp only [Option.some.injEq]
            exact this
          · rw [if_neg hok]
            exact Or.inl rfl
        · have hacq' : env.acquireOk = false := Bool.eq_false_iff.mpr hacq
          rw [crawl_file_noacq_eq env raw [] maxLinks hne' hacq']
          exact Or.inl rfl

/-- C8 counterexample: the sleep is not skipped after the final attempt.
With one link and cap 5 the single (final) attempt is still followed by a
sleep, and with two links and cap 1 the run that stops at the cap also
slept after its only attempt — under the claim both runs should show zero
sleeps. -/
theorem delay_skip_counterexample :
    ((crawl_file witnessEnv (some [toL "http://a.example"]) [] 5).attempted.length
        = 1 ∧
     (crawl_file witnessEnv (some [toL "http://a.example"]) [] 5).slept = [1]) ∧
    ((crawl_file witnessEnv
        (some [toL "http://a.example", toL "http://b.example"]) [] 1).attempted.length
        = 1 ∧
     (crawl_file witnessEnv
        (some [toL "http://a.example", toL "http://b.example"]) [] 1).slept
        = [1]) := by
  decide

/-- C8 amended: after each attempt the loop sleeps for a duration drawn
from the ambient random source in `[delay_min, delay_max]`; the sleep
follows every attempt, including the final one, and the cap-detection break
itself (which happens before any fetch) adds no sleep: the sleeps of a run
are exactly one per attempt, in iteration order. -/
theorem delay_after_every_attempt (env : Env)
    (input : Option (List (List Char))) (keyword : List Char) (maxLinks : Nat) :
    (crawl_file env input keyword maxLinks).slept
      = List.range' 1 (crawl_file env input keyword maxLinks).attempted.length := by
  cases input with
  | none => rfl
  | some raw =>
    by_cases hne : (cleanLines raw).isEmpty = true
    · rw [crawl_file_empty_eq env raw keyword maxLinks hne]
      rfl
    · have hne' : (cleanLines raw).isEmpty = false := Bool.eq_false_iff.mpr hne
      by_cases hacq : env.acquireOk = true
      · obtain ⟨hatt, -, hslept, -⟩ :=
          crawl_file_loop_fields env raw keyword maxLinks hne' hacq
        rw [hatt, hslept]
        simpa using crawlLoop_slept_eq env keyword maxLinks
          (dedupe (cleanLines raw)) 0
      · have hacq' : env.acquireOk = false := Bool.eq_false_iff.mpr hacq
        rw [crawl_file_noacq_eq env raw keyword maxLinks hne' hacq']
        rfl

/-- C10: whenever the extractor returns a snippet, the keyword is non-empty,
its lowercasing occurs as a substring of the lowercased body, and the
snippet is dot-wrapped (hence never empty). -/
theorem snippet_soundness (stripTags : List Char → Option (List Char))
    (html keyword s : List Char)
    (h : search_in_html stripTags html keyword = some s) :
    (¬ keyword = []) ∧
    (∃ u v, u ++ lowerL keyword ++ v = lowerL html) ∧
    (∃ mid, s = dots ++ mid ++ dots) ∧
    ¬ s = [] := by
  unfold search_in_html at h
  by_cases hke : keyword.isEmpty = true
  · rw [if_pos hke] at h
    cases h
  · rw [if_neg hke] at h
    cases hfs : findSub (lowerL keyword) (lowerL html) with
    | none =>
      rw [hfs] at h
      cases h
    | some i =>
      rw [hfs] at h
      have hkne : ¬ keyword = [] := by
        intro hcon
        exact hke (by rw [hcon]; rfl)
      obtain ⟨r, hr⟩ := findSub_some_split (lowerL keyword) (lowerL html) i hfs
      have hs : s = dots ++ replaceNl (pyStrip (rawOr stripTags (window html i)))
          ++ dots := by
        cases h
        rfl
      refine ⟨hkne, ⟨(lowerL html).take i, r, hr.symm⟩, ⟨_, hs⟩, ?_⟩
      rw [hs]
      simp [dots]

/-- Witness for C10 at a concrete body and keyword with a successful
search. -/
theorem snippet_soundness_witness :
    search_in_html noStrip (toL "abcKEYdef") (toL "key")
      = some (toL "...abcKEYdef...") ∧
    ((¬ toL "key" = []) ∧
     (∃ u v, u ++ lowerL (toL "key") ++ v = lowerL (toL "abcKEYdef")) ∧
     (∃ mid, toL "...abcKEYdef..." = dots ++ mid ++ dots) ∧
     ¬ toL "...abcKEYdef..." = []) :=
  ⟨by decide,
    snippet_soundness noStrip (toL "abcKEYdef") (toL "key")
      (toL "...abcKEYdef...") (by decide)⟩

end CredScan
